import Mathlib

/-
Verification development for the instant-runoff tabulator (src/main.ts).

The repository holds two near-identical copies of the tabulator:
  * the TypeScript copy, whose elimination loop selects the minimum COUNT
    (`Math.min(...distribution.map(x => x.count))`) and whose zero-vote
    pre-elimination filters `count === 0`;
  * the JavaScript copy, whose elimination loop selects the minimum PERCENT
    (`Math.min(...distribution.map(x => x.percent))`) and whose zero-vote
    pre-elimination filters `percent === 0`.
Both are embedded below: the count variant as `loopStep` / `runReport`, the
percent variant as `loopStepP` / `runReportP`.

Modelling decisions, each tied to the source:

  * A CSV cell is abstracted past string parsing: `Cell.empty` is the empty
    string (falsy in JS, skipped by `filter(Boolean)` and by `if (!rank)`),
    `Cell.num q` is a non-empty string whose JS numeric coercion `+x` is the
    (finite) number q, and `Cell.nan` is a non-empty string coercing to NaN.

  * JS numbers arising as percentages are modelled as `Option ℚ`, with `none`
    playing the role of NaN.  In this program a percentage is always
    `100 * count / ballots.length` with `0 ≤ count ≤ ballots.length`, so NaN
    (the case `0/0`) arises exactly when `ballots.length = 0`; Infinity never
    arises.  Comparisons (`> 50`, `===`, `Math.min`) follow IEEE NaN rules:
    any comparison with NaN is false and `Math.min` propagates NaN.  Exact
    rational arithmetic agrees with double arithmetic for every comparison
    the program makes at any feasible array size (the nearest distinct
    percentages differ by at least 100 / 2^32, far above double rounding
    error near 100), so ℚ is a faithful carrier.  The value is constructed
    with `mkRat` so that it is kernel-computable; the lemma
    `pctOf_eq_div` recovers the literal form `100 * count / n`.

  * `Array.prototype.sort` is stable (ECMA-262) and the comparator
    `(a, b) => b.count - a.count` is a consistent total preorder, so the
    sorted output is the unique stable descending-by-count ordering; it is
    modelled by the stable `List.insertionSort`.

  * The `splice`-based mutation in `removeCandidates` deletes every
    occurrence of a removed candidate and then every ballot left empty,
    preserving order: it is the pure filter given below.

  * `while (true)` is modelled with explicit fuel; `ReportResult.fuelOut`
    marks fuel exhaustion and is never a behaviour of the program, only of
    the model when the fuel given is too small.
-/

/-- JS comparison `percent > 50` where `none` models NaN (NaN > 50 is false). -/
def jsGt50 : Option ℚ → Bool
  | some q => decide (50 < q)
  | none => false

/-- JS strict equality `===` on numbers where `none` models NaN
(NaN === x is false for every x, including NaN). -/
def jsEqNum : Option ℚ → Option ℚ → Bool
  | some a, some b => a == b
  | _, _ => false

/-- JS `Math.min` on two numbers where `none` models NaN (NaN propagates). -/
def jsMin : Option ℚ → Option ℚ → Option ℚ
  | some a, some b => some (min a b)
  | _, _ => none

/-- A CSV cell, abstracted past JS string-to-number coercion: the empty
string, a string coercing to the finite number q, or a string coercing
to NaN. -/
inductive Cell
  | empty
  | num (q : ℚ)
  | nan
deriving DecidableEq

/-- `filter(Boolean)` on the cells of a row: exactly the non-empty strings
are truthy. -/
def cellKept : Cell → Bool
  | .empty => false
  | _ => true

/-- Does some non-empty cell of the row coerce to NaN? -/
def rowHasNan (row : List Cell) : Bool :=
  row.any (fun c => c == Cell.nan)

/-- The finite numeric values of the non-empty cells of a row, in row order. -/
def rowVals (row : List Cell) : List ℚ :=
  row.filterMap (fun c => match c with | .num q => some q | _ => none)

/-- The rankings check of `checkInvalidInput`: sort the numeric values of the
non-empty cells ascending and require the result to be exactly 1, 2, ..., k.
When a NaN is present the JS sort comparator `(a, b) => a - b` is
inconsistent and the sorted order is unspecified, but the check
`rankings[j] !== j + 1` then fails at the position of the NaN in every
order, so validity is equivalent to: no NaN, and the sorted finite values
are exactly 1..k. -/
def rowRankingsValid (row : List Cell) : Bool :=
  !rowHasNan row &&
    (List.insertionSort (· ≤ ·) (rowVals row) ==
      (List.range (row.filter cellKept).length).map (fun j => ((j + 1 : ℕ) : ℚ)))

/-- The two per-row failure kinds reported by `checkInvalidInput`. -/
inductive ErrKind
  | tooManyColumns
  | invalidRankings
deriving DecidableEq

/-- The problems `checkInvalidInput` reports for one row: it logs the column
check (`lines[i].length > headers.length`) and the rankings check
independently, so a row can contribute both. -/
def rowProblems (m : ℕ) (row : List Cell) : List ErrKind :=
  (if m < row.length then [ErrKind.tooManyColumns] else []) ++
  (if rowRankingsValid row then [] else [ErrKind.invalidRankings])

/-- The collecting pass of `checkInvalidInput` over the ballot rows, carrying
the 1-based line number printed in each message (the first ballot row is
line 2). -/
def checkAux (m : ℕ) : ℕ → List (List Cell) → List (ℕ × ErrKind)
  | _, [] => []
  | i, row :: rest => (rowProblems m row).map (fun e => (i, e)) ++ checkAux m (i + 1) rest

/-- `checkInvalidInput`: every problem of every ballot row, with its line
number; the program prints them all and exits iff the list is non-empty. -/
def checkInvalidInput (m : ℕ) (rows : List (List Cell)) : List (ℕ × ErrKind) :=
  checkAux m 2 rows

/-- A ballot: candidate column indices, highest preference first. -/
abbrev Ballot := List ℕ

/-- Ballot normalization (`lines.slice(1).map(...)` in `generateReport`):
the JS loop writes `ballot[+rank - 1] = candidate` for each non-empty cell.
On a row that passed validation the ranks present are exactly 1..k with no
repeats, so the resulting dense array has, at position r - 1, the unique
column index whose cell holds rank r; that is the value computed here.
(The function is only ever applied after `checkInvalidInput` succeeds.) -/
def normalizeRow (row : List Cell) : Ballot :=
  (List.range (row.filter cellKept).length).filterMap
    (fun r => row.findIdx? (fun c => c == Cell.num ((r + 1 : ℕ) : ℚ)))

/-- All ballot rows, normalized. -/
def normalizeRows (rows : List (List Cell)) : List Ballot :=
  rows.map normalizeRow

/-- One distribution entry, as in the source. -/
structure ShareOfVotes where
  candidate : ℕ
  count : ℕ
  percent : Option ℚ
deriving DecidableEq

instance : Inhabited ShareOfVotes := ⟨⟨0, 0, none⟩⟩

/-- `ballots.filter(v => v[0] === candidate).length`: `v[0]` of an empty
ballot is `undefined`, which is `===` to no candidate. -/
def countFirst (ballots : List Ballot) (c : ℕ) : ℕ :=
  (ballots.filter (fun b => b.head? == some c)).length

/-- `100 * count / ballots.length` as a JS number: NaN (here `none`) exactly
when the ballot list is empty (then `count = 0` as well, so the JS value is
`0/0`).  Built with `mkRat` for kernel computability; `pctOf_eq_div`
recovers the division form. -/
def pctOf (count n : ℕ) : Option ℚ :=
  if n = 0 then none else some (mkRat (100 * count) n)

/-- The distribution entry `getDistribution` builds for one candidate. -/
def mkShare (ballots : List Ballot) (c : ℕ) : ShareOfVotes :=
  { candidate := c
    count := countFirst ballots c
    percent := pctOf (countFirst ballots c) ballots.length }

/-- `getDistribution`: one entry per candidate, sorted by descending count
(stable, as `Array.prototype.sort` is). -/
def getDistribution (candidates : List ℕ) (ballots : List Ballot) : List ShareOfVotes :=
  List.insertionSort (fun a b => b.count ≤ a.count) (candidates.map (mkShare ballots))

/-- `removeCandidates`: drop the removed candidates from the candidate list,
strip them from every ballot, and drop any ballot left empty (the nested
`splice` loops preserve the order of what remains, so they are filters). -/
def removeCandidates (toRemove : List ℕ) (candidates : List ℕ) (ballots : List Ballot) :
    List ℕ × List Ballot :=
  (candidates.filter (fun c => !toRemove.contains c),
   (ballots.map (fun b => b.filter (fun x => !toRemove.contains x))).filter
     (fun b => !b.isEmpty))

/-- `Math.min(...distribution.map(x => x.count))`; the value on an empty
distribution (JS Infinity) is irrelevant because it is only used to filter
that same empty list. -/
def lowestCount (dist : List ShareOfVotes) : ℕ :=
  match dist.map (fun s => s.count) with
  | [] => 0
  | x :: xs => xs.foldl min x

/-- The elimination set of the count variant: every candidate whose count
equals the minimum count. -/
def selMinCount (dist : List ShareOfVotes) : List ℕ :=
  (dist.filter (fun s => s.count == lowestCount dist)).map (fun s => s.candidate)

/-- `Math.min(...distribution.map(x => x.percent))` with NaN propagation. -/
def lowestPercent (dist : List ShareOfVotes) : Option ℚ :=
  match dist.map (fun s => s.percent) with
  | [] => none
  | x :: xs => xs.foldl jsMin x

/-- The elimination set of the percent variant: every candidate whose percent
is `===` to the minimum percent (so nobody, when the minimum is NaN). -/
def selMinPercent (dist : List ShareOfVotes) : List ℕ :=
  (dist.filter (fun s => jsEqNum s.percent (lowestPercent dist))).map (fun s => s.candidate)

/-- Outcome of one pass through the body of the `while (true)` loop. -/
inductive StepRes
  | tie (k : ℕ) (candidates : List ℕ) (ballots : List Ballot)
  | won (winner : ℕ) (dist : List ShareOfVotes) (candidates : List ℕ) (ballots : List Ballot)
  | next (candidates : List ℕ) (ballots : List Ballot)
deriving DecidableEq

/-- The body of the count-variant loop, at a loop head where `distribution`
equals `getDistribution candidates ballots` (the invariant the program
maintains): declare a tie when the tied-for-lowest set is everybody,
otherwise eliminate it, recompute, and declare a winner iff the leading
percent exceeds 50. -/
def loopStep (candidates : List ℕ) (ballots : List Ballot) : StepRes :=
  let dist := getDistribution candidates ballots
  let toElim := selMinCount dist
  if toElim.length = candidates.length then
    .tie candidates.length candidates ballots
  else
    let st := removeCandidates toElim candidates ballots
    let dist2 := getDistribution st.1 st.2
    if jsGt50 (dist2.headD default).percent then
      .won (dist2.headD default).candidate dist2 st.1 st.2
    else
      .next st.1 st.2

/-- The body of the percent-variant loop; identical except for the
elimination selector. -/
def loopStepP (candidates : List ℕ) (ballots : List Ballot) : StepRes :=
  let dist := getDistribution candidates ballots
  let toElim := selMinPercent dist
  if toElim.length = candidates.length then
    .tie candidates.length candidates ballots
  else
    let st := removeCandidates toElim candidates ballots
    let dist2 := getDistribution st.1 st.2
    if jsGt50 (dist2.headD default).percent then
      .won (dist2.headD default).candidate dist2 st.1 st.2
    else
      .next st.1 st.2

/-- Abstract result of a run.  `tie` and `won` record the phase counter and
the working candidate and ballot lists exactly as they stand when the
program returns (for `tie`, unmodified by the elimination it declined to
perform).  `fuelOut` is a model artefact marking insufficient fuel. -/
inductive ReportResult
  | invalid (errs : List (ℕ × ErrKind))
  | wonImmediately (winner : ℕ) (dist : List ShareOfVotes)
  | won (phase winner : ℕ) (dist : List ShareOfVotes) (candidates : List ℕ) (ballots : List Ballot)
  | tie (phase k : ℕ) (candidates : List ℕ) (ballots : List Ballot)
  | fuelOut
deriving DecidableEq

/-- The count-variant `while (true)` loop with fuel; `phase` is the value of
the phase counter at entry (the program increments it at the top of each
pass). -/
def loop : ℕ → ℕ → List ℕ → List Ballot → ReportResult
  | 0, _, _, _ => .fuelOut
  | fuel + 1, phase, candidates, ballots =>
    match loopStep candidates ballots with
    | .tie k c b => .tie (phase + 1) k c b
    | .won w d c b => .won (phase + 1) w d c b
    | .next c b => loop fuel (phase + 1) c b

/-- The percent-variant loop. -/
def loopP : ℕ → ℕ → List ℕ → List Ballot → ReportResult
  | 0, _, _, _ => .fuelOut
  | fuel + 1, phase, candidates, ballots =>
    match loopStepP candidates ballots with
    | .tie k c b => .tie (phase + 1) k c b
    | .won w d c b => .won (phase + 1) w d c b
    | .next c b => loopP fuel (phase + 1) c b

/-- The zero-vote pre-elimination filter of the count variant
(`count === 0`). -/
def zeroVoteCandidates (dist : List ShareOfVotes) : List ℕ :=
  (dist.filter (fun s => s.count == 0)).map (fun s => s.candidate)

/-- The zero-vote pre-elimination filter of the percent variant
(`percent === 0`; false for NaN). -/
def zeroPercentCandidates (dist : List ShareOfVotes) : List ℕ :=
  (dist.filter (fun s => jsEqNum s.percent (some 0))).map (fun s => s.candidate)

/-- The working state of the count variant on entry to the loop: the
zero-vote pre-elimination runs only when its set is non-empty (otherwise
`removeCandidates` is not called and even empty ballots survive to the
loop). -/
def preLoopState (m : ℕ) (rows : List (List Cell)) : List ℕ × List Ballot :=
  let ballots := normalizeRows rows
  let initialCandidates := List.range m
  let zeros := zeroVoteCandidates (getDistribution initialCandidates ballots)
  if zeros.isEmpty then (initialCandidates, ballots)
  else removeCandidates zeros initialCandidates ballots

/-- The working state of the percent variant on entry to the loop. -/
def preLoopStateP (m : ℕ) (rows : List (List Cell)) : List ℕ × List Ballot :=
  let ballots := normalizeRows rows
  let initialCandidates := List.range m
  let zeros := zeroPercentCandidates (getDistribution initialCandidates ballots)
  if zeros.isEmpty then (initialCandidates, ballots)
  else removeCandidates zeros initialCandidates ballots

/-- `generateReport` of the count (TypeScript) variant, abstracted to the
decision structure of the report it emits.  `m` is the number of header
columns (candidates); `rows` are the ballot rows. -/
def runReport (fuel m : ℕ) (rows : List (List Cell)) : ReportResult :=
  let errs := checkInvalidInput m rows
  if !errs.isEmpty then .invalid errs
  else
    let ballots := normalizeRows rows
    let dist := getDistribution (List.range m) ballots
    if jsGt50 (dist.headD default).percent then
      .wonImmediately (dist.headD default).candidate dist
    else
      let st := preLoopState m rows
      loop fuel 1 st.1 st.2

/-- `generateReport` of the percent (JavaScript) variant. -/
def runReportP (fuel m : ℕ) (rows : List (List Cell)) : ReportResult :=
  let errs := checkInvalidInput m rows
  if !errs.isEmpty then .invalid errs
  else
    let ballots := normalizeRows rows
    let dist := getDistribution (List.range m) ballots
    if jsGt50 (dist.headD default).percent then
      .wonImmediately (dist.headD default).candidate dist
    else
      let st := preLoopStateP m rows
      loopP fuel 1 st.1 st.2

/-- Did the run reach one of the terminal report outcomes (immediate win,
runoff win, or tie)? -/
def resultTerminal : ReportResult → Bool
  | .wonImmediately _ _ => true
  | .won _ _ _ _ _ => true
  | .tie _ _ _ _ => true
  | _ => false

/-- The phase counter at which the run ended (1 for an immediate win, the
recorded phase for `won` and `tie`, 0 otherwise). -/
def resultPhase : ReportResult → ℕ
  | .wonImmediately _ _ => 1
  | .won p _ _ _ _ => p
  | .tie p _ _ _ => p
  | _ => 0

/-- The state after the elimination a count-variant loop pass performs when
it does not declare a tie: remove the tied-for-lowest set. -/
def elimState (cands : List ℕ) (bs : List Ballot) : List ℕ × List Ballot :=
  removeCandidates (selMinCount (getDistribution cands bs)) cands bs

/-- The recomputed distribution after that elimination. -/
def postDist (cands : List ℕ) (bs : List Ballot) : List ShareOfVotes :=
  getDistribution (elimState cands bs).1 (elimState cands bs).2

/-- The `mkRat` form of a percentage equals the literal source expression
`100 * count / ballots.length` (as exact rationals). -/
theorem pctOf_eq_div (c n : ℕ) :
    pctOf c n = if n = 0 then none else some (100 * (c : ℚ) / n) := by
  unfold pctOf
  rcases Nat.eq_zero_or_pos n with h | h
  · simp [h]
  · rw [if_neg h.ne.symm, if_neg h.ne.symm, Rat.mkRat_eq_div]
    push_cast
    ring_nf

theorem jsGt50_pctOf (c n : ℕ) :
    jsGt50 (pctOf c n) = true ↔ 0 < n ∧ n < 2 * c := by
  rw [pctOf_eq_div]
  rcases Nat.eq_zero_or_pos n with h | h
  · simp [h, jsGt50]
  · rw [if_neg h.ne.symm]
    have hn : (0 : ℚ) < n := by exact_mod_cast h
    have : (50 : ℚ) < 100 * (c : ℚ) / n ↔ (n : ℚ) < 2 * c := by
      rw [lt_div_iff₀ hn]
      constructor
      · intro hlt; nlinarith
      · intro hlt; nlinarith
    simp only [jsGt50, decide_eq_true_eq, this]
    constructor
    · intro hlt
      exact ⟨h, by exact_mod_cast hlt⟩
    · intro ⟨_, hlt⟩
      exact_mod_cast hlt

theorem jsGt50_pctOf_of_le {c n : ℕ} (hc : c ≤ n) :
    jsGt50 (pctOf c n) = true ↔ n < 2 * c := by
  rw [jsGt50_pctOf]
  constructor
  · exact fun h => h.2
  · intro h
    refine ⟨?_, h⟩
    by_contra hn
    have : n = 0 := Nat.eq_zero_of_not_pos hn
    omega

theorem countFirst_le_length (bs : List Ballot) (c : ℕ) :
    countFirst bs c ≤ bs.length :=
  List.length_filter_le _ _

theorem getDistribution_perm (cands : List ℕ) (bs : List Ballot) :
    (getDistribution cands bs).Perm (cands.map (mkShare bs)) :=
  List.perm_insertionSort _ _

theorem mem_getDistribution {cands : List ℕ} {bs : List Ballot} {s : ShareOfVotes} :
    s ∈ getDistribution cands bs ↔ ∃ c ∈ cands, s = mkShare bs c := by
  rw [(getDistribution_perm cands bs).mem_iff, List.mem_map]
  constructor
  · rintro ⟨c, hc, rfl⟩; exact ⟨c, hc, rfl⟩
  · rintro ⟨c, hc, rfl⟩; exact ⟨c, hc, rfl⟩

theorem length_getDistribution (cands : List ℕ) (bs : List Ballot) :
    (getDistribution cands bs).length = cands.length := by
  rw [(getDistribution_perm cands bs).length_eq, List.length_map]

theorem foldlMin_le : ∀ (xs : List ℕ) (x y : ℕ), (y = x ∨ y ∈ xs) → xs.foldl min x ≤ y := by
  intro xs
  induction xs with
  | nil =>
    intro x y hy
    rcases hy with rfl | h
    · exact le_rfl
    · cases h
  | cons z zs ih =>
    intro x y hy
    simp only [List.foldl_cons]
    have hbase : zs.foldl min (min x z) ≤ min x z := ih (min x z) (min x z) (Or.inl rfl)
    rcases hy with rfl | h
    · exact le_trans hbase (min_le_left _ _)
    · rcases List.mem_cons.mp h with rfl | h
      · exact le_trans hbase (min_le_right _ _)
      · exact ih (min x z) y (Or.inr h)

theorem foldlMin_mem : ∀ (xs : List ℕ) (x : ℕ), xs.foldl min x = x ∨ xs.foldl min x ∈ xs := by
  intro xs
  induction xs with
  | nil => intro x; exact Or.inl rfl
  | cons z zs ih =>
    intro x
    simp only [List.foldl_cons]
    rcases ih (min x z) with h | h
    · rcases le_total x z with hxz | hxz
      · left; rw [h, min_eq_left hxz]
      · right; rw [h, min_eq_right hxz]; exact List.mem_cons_self _ _
    · right; exact List.mem_cons_of_mem _ h

theorem lowestCount_le {dist : List ShareOfVotes} {s : ShareOfVotes} (hs : s ∈ dist) :
    lowestCount dist ≤ s.count := by
  unfold lowestCount
  cases dist with
  | nil => cases hs
  | cons t ts =>
    simp only [List.map_cons]
    rcases List.mem_cons.mp hs with rfl | h
    · exact foldlMin_le _ _ _ (Or.inl rfl)
    · exact foldlMin_le _ _ _ (Or.inr (List.mem_map_of_mem _ h))

theorem lowestCount_attained {dist : List ShareOfVotes} (h : dist ≠ []) :
    ∃ s ∈ dist, s.count = lowestCount dist := by
  unfold lowestCount
  cases dist with
  | nil => exact absurd rfl h
  | cons t ts =>
    simp only [List.map_cons]
    rcases foldlMin_mem (ts.map (fun s => s.count)) t.count with hm | hm
    · exact ⟨t, List.mem_cons_self _ _, hm.symm⟩
    · rcases List.mem_map.mp hm with ⟨s, hs, hv⟩
      exact ⟨s, List.mem_cons_of_mem _ hs, hv⟩

theorem mem_selMinCount {dist : List ShareOfVotes} {e : ℕ} :
    e ∈ selMinCount dist ↔ ∃ s ∈ dist, s.count = lowestCount dist ∧ s.candidate = e := by
  unfold selMinCount
  simp only [List.mem_map, List.mem_filter, beq_iff_eq]
  constructor
  · rintro ⟨s, ⟨hs, hc⟩, rfl⟩; exact ⟨s, hs, hc, rfl⟩
  · rintro ⟨s, hs, hc, rfl⟩; exact ⟨s, ⟨hs, hc⟩, rfl⟩

theorem selMinCount_ne_nil {dist : List ShareOfVotes} (h : dist ≠ []) :
    selMinCount dist ≠ [] := by
  rcases lowestCount_attained h with ⟨s, hs, hv⟩
  intro hnil
  have : s.candidate ∈ selMinCount dist := mem_selMinCount.mpr ⟨s, hs, hv, rfl⟩
  rw [hnil] at this
  cases this

theorem removeCandidates_cands_mem {rm cands : List ℕ} {c : ℕ} :
    c ∈ (removeCandidates rm cands bs).1 ↔ c ∈ cands ∧ rm.contains c = false := by
  unfold removeCandidates
  simp [List.mem_filter]

theorem removeCandidates_ballots_shape {rm cands : List ℕ} {bs : List Ballot} {b : Ballot}
    (hb : b ∈ (removeCandidates rm cands bs).2) :
    b ≠ [] ∧ ∃ b0 ∈ bs, b = b0.filter (fun x => !rm.contains x) := by
  unfold removeCandidates at hb
  simp only [List.mem_filter, List.mem_map] at hb
  obtain ⟨⟨b0, hb0, rfl⟩, hne⟩ := hb
  refine ⟨?_, b0, hb0, rfl⟩
  simpa [List.isEmpty_iff] using hne

theorem countFirst_strip_le (rm : List ℕ) (c : ℕ) (hc : rm.contains c = false)
    (bs : List Ballot) :
    countFirst bs c ≤
      countFirst ((bs.map (fun b => b.filter (fun x => !rm.contains x))).filter
        (fun b => !b.isEmpty)) c := by
  unfold countFirst
  rw [← List.countP_eq_length_filter, ← List.countP_eq_length_filter,
    List.countP_filter, List.countP_map]
  refine List.countP_mono_left ?_
  intro b _ hb
  have hb2 : b.head? = some c := by simpa using hb
  obtain ⟨t, rfl⟩ : ∃ t, b = c :: t := by
    cases b with
    | nil => simp at hb2
    | cons x t =>
      have hx : x = c := by simpa using hb2
      exact ⟨t, by rw [hx]⟩
  have hcm : c ∉ rm := by simpa using hc
  simp [List.filter_cons, hcm]

theorem countFirst_removeCandidates_le {rm cands : List ℕ} {c : ℕ} (bs : List Ballot)
    (hc : rm.contains c = false) :
    countFirst bs c ≤ countFirst (removeCandidates rm cands bs).2 c := by
  unfold removeCandidates
  exact countFirst_strip_le rm c hc bs

theorem loopStep_eq_tie_iff {cands : List ℕ} {bs : List Ballot} {k : ℕ}
    {c : List ℕ} {b : List Ballot} :
    loopStep cands bs = StepRes.tie k c b ↔
      (selMinCount (getDistribution cands bs)).length = cands.length ∧
        k = cands.length ∧ c = cands ∧ b = bs := by
  unfold loopStep
  dsimp only
  split_ifs with h1 h2
  · constructor
    · intro h
      injection h with hk hc hb
      exact ⟨h1, hk.symm, hc.symm, hb.symm⟩
    · rintro ⟨-, rfl, rfl, rfl⟩
      rfl
  · constructor
    · intro h; cases h
    · rintro ⟨h, -⟩; exact absurd h h1
  · constructor
    · intro h; cases h
    · rintro ⟨h, -⟩; exact absurd h h1

theorem loopStep_eq_won_of {cands : List ℕ} {bs : List Ballot}
    (h1 : (selMinCount (getDistribution cands bs)).length ≠ cands.length)
    (h2 : jsGt50 ((postDist cands bs).headD default).percent = true) :
    loopStep cands bs = StepRes.won ((postDist cands bs).headD default).candidate
      (postDist cands bs) (elimState cands bs).1 (elimState cands bs).2 := by
  unfold loopStep
  dsimp only
  unfold postDist elimState at h2
  rw [List.headD_eq_head?_getD] at h2
  simp [h1, h2, postDist, elimState]

theorem loopStep_eq_next_iff {cands c2 : List ℕ} {bs b2 : List Ballot} :
    loopStep cands bs = StepRes.next c2 b2 ↔
      (selMinCount (getDistribution cands bs)).length ≠ cands.length ∧
        jsGt50 ((postDist cands bs).headD default).percent = false ∧
        c2 = (elimState cands bs).1 ∧ b2 = (elimState cands bs).2 := by
  unfold loopStep
  dsimp only
  unfold postDist elimState
  split_ifs with h1 h2
  · constructor
    · intro h; cases h
    · rintro ⟨hne, -⟩; exact absurd h1 hne
  · constructor
    · intro h; cases h
    · rintro ⟨-, h, -⟩
      rw [h2] at h
      cases h
  · constructor
    · intro h
      injection h with hc hb
      exact ⟨h1, by simpa using h2, hc.symm, hb.symm⟩
    · rintro ⟨-, -, rfl, rfl⟩
      rfl

theorem getDistribution_nil (bs : List Ballot) : getDistribution [] bs = [] := rfl

theorem mem_elim_sub {cands : List ℕ} {bs : List Ballot} {e : ℕ}
    (h : e ∈ selMinCount (getDistribution cands bs)) :
    e ∈ cands ∧ countFirst bs e = lowestCount (getDistribution cands bs) := by
  rcases mem_selMinCount.mp h with ⟨s, hs, hcnt, hcand⟩
  rcases mem_getDistribution.mp hs with ⟨c, hc, rfl⟩
  refine ⟨?_, ?_⟩
  · rw [← hcand]; exact hc
  · rw [← hcand]; exact hcnt

theorem sel_length_of_all_min {cands : List ℕ} {bs : List Ballot}
    (h : ∀ c ∈ cands, countFirst bs c = lowestCount (getDistribution cands bs)) :
    (selMinCount (getDistribution cands bs)).length = cands.length := by
  unfold selMinCount
  rw [List.filter_eq_self.mpr, List.length_map, length_getDistribution]
  intro s hs
  rcases mem_getDistribution.mp hs with ⟨c, hc, rfl⟩
  simpa [mkShare] using h c hc

theorem cands_ne_nil_of_not_tie {cands : List ℕ} {bs : List Ballot}
    (h : (selMinCount (getDistribution cands bs)).length ≠ cands.length) :
    cands ≠ [] := by
  intro hnil
  subst hnil
  rw [getDistribution_nil] at h
  exact h rfl

theorem dist_ne_nil_of_cands {cands : List ℕ} {bs : List Ballot} (h : cands ≠ []) :
    getDistribution cands bs ≠ [] := by
  intro hnil
  have := length_getDistribution cands bs
  rw [hnil] at this
  exact h (List.length_eq_zero.mp this.symm)

theorem elim_cands_lt_of_not_tie {cands : List ℕ} {bs : List Ballot}
    (h : (selMinCount (getDistribution cands bs)).length ≠ cands.length) :
    (elimState cands bs).1.length < cands.length := by
  have hcands := cands_ne_nil_of_not_tie h
  have hdist : getDistribution cands bs ≠ [] := dist_ne_nil_of_cands hcands
  have hsel := selMinCount_ne_nil hdist
  rcases List.exists_mem_of_ne_nil _ hsel with ⟨e, he⟩
  have hmem := mem_elim_sub he
  unfold elimState removeCandidates
  rw [List.length_filter_lt_length_iff_exists]
  exact ⟨e, hmem.1, by simpa using he⟩

theorem elim_cands_ne_nil_of_not_tie {cands : List ℕ} {bs : List Ballot}
    (h : (selMinCount (getDistribution cands bs)).length ≠ cands.length) :
    (elimState cands bs).1 ≠ [] := by
  intro hnil
  unfold elimState removeCandidates at hnil
  simp only at hnil
  have hall : ∀ c ∈ cands, countFirst bs c = lowestCount (getDistribution cands bs) := by
    intro c hc
    have := List.filter_eq_nil_iff.mp hnil c hc
    have hcsel : c ∈ selMinCount (getDistribution cands bs) := by
      simp only [Bool.not_eq_true, Bool.not_eq_false] at this
      simpa using this
    exact (mem_elim_sub hcsel).2
  exact h (sel_length_of_all_min hall)

theorem removeCandidates_preserves {rm cands : List ℕ} {bs : List Ballot}
    (H : ∀ b ∈ bs, ∀ x ∈ b, x ∈ cands) :
    ∀ b ∈ (removeCandidates rm cands bs).2,
      b ≠ [] ∧ ∀ x ∈ b, x ∈ (removeCandidates rm cands bs).1 := by
  intro b hb
  obtain ⟨hne, b0, hb0, rfl⟩ := removeCandidates_ballots_shape hb
  refine ⟨hne, ?_⟩
  intro x hx
  rw [List.mem_filter] at hx
  exact removeCandidates_cands_mem.mpr
    ⟨H b0 hb0 x hx.1, by simpa using hx.2⟩

theorem counts_pos_preserved {rm cands : List ℕ} {bs : List Ballot}
    (H : ∀ c ∈ cands, 1 ≤ countFirst bs c) :
    ∀ c ∈ (removeCandidates rm cands bs).1, 1 ≤ countFirst (removeCandidates rm cands bs).2 c := by
  intro c hc
  rcases removeCandidates_cands_mem.mp hc with ⟨hcc, hrm⟩
  exact le_trans (H c hcc) (countFirst_removeCandidates_le bs hrm)

theorem singleton_head_win {bs : List Ballot} {s : ℕ}
    (hne : ∀ b ∈ bs, b ≠ [] ∧ ∀ x ∈ b, x ∈ [s])
    (hcount : 1 ≤ countFirst bs s) :
    jsGt50 ((getDistribution [s] bs).headD default).percent = true := by
  have hdist : getDistribution [s] bs = [mkShare bs s] := rfl
  have hall : countFirst bs s = bs.length := by
    unfold countFirst
    rw [List.filter_eq_self.mpr]
    intro b hb
    rcases hne b hb with ⟨hbne, hsub⟩
    cases b with
    | nil => exact absurd rfl hbne
    | cons h t =>
      have : h ∈ [s] := hsub h (List.mem_cons_self _ _)
      simp only [List.mem_singleton] at this
      subst this
      simp
  rw [hdist]
  simp only [List.headD_cons]
  show jsGt50 (mkShare bs s).percent = true
  unfold mkShare
  simp only
  rw [jsGt50_pctOf, hall]
  have : 1 ≤ bs.length := by rw [← hall]; exact hcount
  omega

theorem loop_reaches : ∀ (fuel : ℕ) (phase : ℕ) (cands : List ℕ) (bs : List Ballot),
    (∀ b ∈ bs, ∀ x ∈ b, x ∈ cands) →
    (∀ c ∈ cands, 1 ≤ countFirst bs c) →
    max 1 (cands.length - 1) ≤ fuel →
    resultTerminal (loop fuel phase cands bs) = true ∧
      resultPhase (loop fuel phase cands bs) ≤ phase + max 1 (cands.length - 1) := by
  intro fuel
  induction fuel with
  | zero =>
    intro phase cands bs _ _ hfuel
    exact absurd (le_trans (le_max_left 1 _) hfuel) (by omega)
  | succ fuel ih =>
    intro phase cands bs H1 H2 hfuel
    rcases hstep : loopStep cands bs with ⟨k, c, b⟩ | ⟨w, d, c, b⟩ | ⟨c, b⟩
    · constructor
      · simp [loop, hstep, resultTerminal]
      · simp only [loop, hstep, resultPhase]
        have := le_max_left 1 (cands.length - 1)
        omega
    · constructor
      · simp [loop, hstep, resultTerminal]
      · simp only [loop, hstep, resultPhase]
        have := le_max_left 1 (cands.length - 1)
        omega
    · obtain ⟨hnt, hnw, hc, hb⟩ := loopStep_eq_next_iff.mp hstep
      subst hc
      subst hb
      have hlt : (elimState cands bs).1.length < cands.length := elim_cands_lt_of_not_tie hnt
      have hnn : (elimState cands bs).1 ≠ [] := elim_cands_ne_nil_of_not_tie hnt
      have hpres : ∀ b ∈ (elimState cands bs).2,
          b ≠ [] ∧ ∀ x ∈ b, x ∈ (elimState cands bs).1 := by
        unfold elimState
        exact removeCandidates_preserves H1
      have H1n : ∀ b ∈ (elimState cands bs).2, ∀ x ∈ b, x ∈ (elimState cands bs).1 :=
        fun b hb => (hpres b hb).2
      have H2n : ∀ cc ∈ (elimState cands bs).1, 1 ≤ countFirst (elimState cands bs).2 cc := by
        unfold elimState
        exact counts_pos_preserved H2
      have hge2 : 2 ≤ (elimState cands bs).1.length := by
        rcases Nat.lt_or_ge (elimState cands bs).1.length 2 with hl | hl
        · exfalso
          interval_cases hml : (elimState cands bs).1.length
          · exact hnn (List.length_eq_zero.mp hml)
          · rcases List.length_eq_one.mp hml with ⟨s, hs⟩
            have hwin : jsGt50 ((getDistribution [s] (elimState cands bs).2).headD
                default).percent = true := by
              refine singleton_head_win ?_ ?_
              · intro b hb
                rcases hpres b hb with ⟨hbne, hsub⟩
                exact ⟨hbne, fun x hx => hs ▸ hsub x hx⟩
              · have : s ∈ (elimState cands bs).1 := by rw [hs]; exact List.mem_singleton_self s
                exact H2n s this
            rw [← hs] at hwin
            unfold postDist at hnw
            rw [hnw] at hwin
            cases hwin
        · exact hl
      have hcl3 : 3 ≤ cands.length := by omega
      have hmax1 : max 1 (cands.length - 1) = cands.length - 1 := by
        rw [max_eq_right]
        omega
      have hmax2 : max 1 ((elimState cands bs).1.length - 1) =
          (elimState cands bs).1.length - 1 := by
        rw [max_eq_right]
        omega
      have hfuel2 : max 1 ((elimState cands bs).1.length - 1) ≤ fuel := by
        rw [hmax2]
        rw [hmax1] at hfuel
        omega
      have hmain := ih (phase + 1) (elimState cands bs).1 (elimState cands bs).2 H1n H2n hfuel2
      constructor
      · rw [show loop (fuel + 1) phase cands bs = loop fuel (phase + 1)
          (elimState cands bs).1 (elimState cands bs).2 by simp [loop, hstep]]
        exact hmain.1
      · rw [show loop (fuel + 1) phase cands bs = loop fuel (phase + 1)
          (elimState cands bs).1 (elimState cands bs).2 by simp [loop, hstep]]
        have := hmain.2
        rw [hmax2] at this
        rw [hmax1]
        omega

theorem rowProblems_eq_nil {m : ℕ} {row : List Cell} :
    rowProblems m row = [] ↔ row.length ≤ m ∧ rowRankingsValid row = true := by
  unfold rowProblems
  split_ifs with h1 h2 <;> simp_all

theorem normalizeRow_entry_lt {row : List Cell} {x : ℕ} (hx : x ∈ normalizeRow row) :
    x < row.length := by
  unfold normalizeRow at hx
  rcases List.mem_filterMap.mp hx with ⟨r, _, hfind⟩
  rcases List.findIdx?_eq_some_iff_getElem.mp hfind with ⟨hlt, _, _⟩
  exact hlt

theorem normalizeRow_nodup (row : List Cell) : (normalizeRow row).Nodup := by
  unfold normalizeRow
  refine List.Nodup.filterMap ?_ (List.nodup_range _)
  intro r1 r2 x hx1 hx2
  rcases List.findIdx?_eq_some_iff_getElem.mp hx1 with ⟨hlt1, hp1, _⟩
  rcases List.findIdx?_eq_some_iff_getElem.mp hx2 with ⟨hlt2, hp2, _⟩
  have h1 : row[x] = Cell.num ((r1 + 1 : ℕ) : ℚ) := by simpa using hp1
  have h2 : row[x] = Cell.num ((r2 + 1 : ℕ) : ℚ) := by simpa using hp2
  rw [h1] at h2
  have hq : ((r1 + 1 : ℕ) : ℚ) = ((r2 + 1 : ℕ) : ℚ) := by
    injection h2
  exact Nat.add_right_cancel (Nat.cast_injective hq)

theorem insertionSort_singleton {α : Type} (r : α → α → Prop) [DecidableRel r] (a : α) :
    List.insertionSort r [a] = [a] := rfl

theorem normalizeRow_of_one {row : List Cell} (hok : rowProblems 1 row = [])
    (hnb : (∀ c ∈ row, c = Cell.empty) → 2 ≤ row.length) :
    normalizeRow row = [0] := by
  obtain ⟨hlen, hrv⟩ := rowProblems_eq_nil.mp hok
  cases row with
  | nil => exact absurd (hnb (by intro c hc; cases hc)) (by omega)
  | cons c t =>
    have ht : t = [] := by
      cases t with
      | nil => rfl
      | cons d u => simp at hlen
    subst ht
    cases c with
    | empty =>
      exact absurd (hnb (by intro c hc; simpa using List.mem_singleton.mp hc)) (by omega)
    | nan =>
      exfalso
      unfold rowRankingsValid rowHasNan at hrv
      simp at hrv
    | num q =>
      have hq : q = ((0 + 1 : ℕ) : ℚ) := by
        unfold rowRankingsValid at hrv
        rw [Bool.and_eq_true] at hrv
        have h2 := hrv.2
        have hvals : rowVals [Cell.num q] = [q] := rfl
        have hkept : ([Cell.num q].filter cellKept) = [Cell.num q] := rfl
        rw [hvals, hkept] at h2
        have : List.insertionSort (· ≤ ·) [q] = [q] := rfl
        rw [this] at h2
        have hlen1 : ([Cell.num q] : List Cell).length = 1 := rfl
        rw [hlen1] at h2
        have htgt : (List.range 1).map (fun j => ((j + 1 : ℕ) : ℚ)) = [((0 + 1 : ℕ) : ℚ)] := by
          decide
        rw [htgt] at h2
        have h3 : [q] = [((0 + 1 : ℕ) : ℚ)] := beq_iff_eq.mp h2
        injection h3 with hq
      subst hq
      decide

theorem mem_zeroVote_iff {cands : List ℕ} {bs : List Ballot} {e : ℕ} :
    e ∈ zeroVoteCandidates (getDistribution cands bs) ↔ e ∈ cands ∧ countFirst bs e = 0 := by
  unfold zeroVoteCandidates
  simp only [List.mem_map, List.mem_filter, beq_iff_eq]
  constructor
  · rintro ⟨s, ⟨hs, hz⟩, rfl⟩
    rcases mem_getDistribution.mp hs with ⟨c, hc, rfl⟩
    exact ⟨hc, hz⟩
  · rintro ⟨hc, hz⟩
    exact ⟨mkShare bs e, ⟨mem_getDistribution.mpr ⟨e, hc, rfl⟩, hz⟩, rfl⟩

theorem checkAux_eq_nil {m : ℕ} {rows : List (List Cell)}
    (h : ∀ row ∈ rows, rowProblems m row = []) :
    ∀ i, checkAux m i rows = [] := by
  induction rows with
  | nil => intro i; rfl
  | cons row rest ih =>
    intro i
    unfold checkAux
    rw [h row (List.mem_cons_self _ _), ih (fun r hr => h r (List.mem_cons_of_mem _ hr)) (i + 1)]
    rfl

theorem m1_immediate {rows : List (List Cell)} (hrows : rows ≠ [])
    (hok : ∀ row ∈ rows, rowProblems 1 row = [] ∧ ((∀ c ∈ row, c = Cell.empty) → 2 ≤ row.length)) :
    jsGt50 ((getDistribution (List.range 1) (normalizeRows rows)).headD default).percent = true := by
  have hball : ∀ b ∈ normalizeRows rows, b = [0] := by
    intro b hb
    rcases List.mem_map.mp hb with ⟨row, hrow, rfl⟩
    exact normalizeRow_of_one (hok row hrow).1 (hok row hrow).2
  have hrange : List.range 1 = [0] := rfl
  rw [hrange]
  have hdist : getDistribution [0] (normalizeRows rows) = [mkShare (normalizeRows rows) 0] := rfl
  rw [hdist]
  simp only [List.headD_cons]
  show jsGt50 (mkShare (normalizeRows rows) 0).percent = true
  unfold mkShare
  simp only
  have hall : countFirst (normalizeRows rows) 0 = (normalizeRows rows).length := by
    unfold countFirst
    rw [List.filter_eq_self.mpr]
    intro b hb
    rw [hball b hb]
    simp
  rw [jsGt50_pctOf, hall]
  have hpos : 0 < (normalizeRows rows).length := by
    unfold normalizeRows
    rw [List.length_map]
    exact List.length_pos.mpr hrows
  omega

/-- C3. For any valid input (every ballot row passes `checkInvalidInput`, with
at least one candidate column and at least one ballot row, the rows being
cells of non-blank CSV lines, so that a row whose cells are all empty has at
least two cells), the count-variant tabulation reaches a Won or Tie terminal
result within fuel equal to the candidate count, the phase counter at
termination is at most the candidate count, and every loop pass that
continues strictly reduces the number of still-competing candidates. -/
theorem c3_termination_bound (m : ℕ) (rows : List (List Cell))
    (hm : 1 ≤ m) (hrows : rows ≠ [])
    (hok : ∀ row ∈ rows, rowProblems m row = [] ∧
      ((∀ c ∈ row, c = Cell.empty) → 2 ≤ row.length)) :
    resultTerminal (runReport m m rows) = true ∧
    resultPhase (runReport m m rows) ≤ m ∧
    (∀ (c c2 : List ℕ) (b b2 : List Ballot), loopStep c b = StepRes.next c2 b2 →
      c2.length < c.length) := by
  have hdec : ∀ (c c2 : List ℕ) (b b2 : List Ballot), loopStep c b = StepRes.next c2 b2 →
      c2.length < c.length := by
    intro c c2 b b2 hstep
    obtain ⟨hnt, -, hc2, -⟩ := loopStep_eq_next_iff.mp hstep
    rw [hc2]
    exact elim_cands_lt_of_not_tie hnt
  have herrs : checkInvalidInput m rows = [] :=
    checkAux_eq_nil (fun row hrow => (hok row hrow).1) 2
  by_cases hwin : jsGt50 ((getDistribution (List.range m)
      (normalizeRows rows)).headD default).percent = true
  · have hrun : runReport m m rows = ReportResult.wonImmediately
        ((getDistribution (List.range m) (normalizeRows rows)).headD default).candidate
        (getDistribution (List.range m) (normalizeRows rows)) := by
      unfold runReport
      rw [herrs]
      dsimp only
      rw [if_neg (by decide)]
      rw [if_pos hwin]
    rw [hrun]
    exact ⟨rfl, by simpa [resultPhase] using hm, hdec⟩
  · have hm2 : 2 ≤ m := by
      rcases Nat.lt_or_ge m 2 with h2 | h2
      · interval_cases m
        · exact absurd (m1_immediate hrows hok) hwin
      · exact h2
    have hrun : runReport m m rows =
        loop m 1 (preLoopState m rows).1 (preLoopState m rows).2 := by
      unfold runReport
      rw [herrs]
      dsimp only
      rw [if_neg (by decide)]
      rw [if_neg hwin]
    have hinit1 : ∀ b ∈ normalizeRows rows, ∀ x ∈ b, x ∈ List.range m := by
      intro b hb x hx
      rcases List.mem_map.mp hb with ⟨row, hrow, rfl⟩
      have hxlt := normalizeRow_entry_lt hx
      have hle := (rowProblems_eq_nil.mp (hok row hrow).1).1
      exact List.mem_range.mpr (lt_of_lt_of_le hxlt hle)
    rw [hrun]
    by_cases hz : (zeroVoteCandidates (getDistribution (List.range m)
        (normalizeRows rows))).isEmpty = true
    · have hst : preLoopState m rows = (List.range m, normalizeRows rows) := by
        unfold preLoopState
        dsimp only
        rw [if_pos hz]
      have hznil : zeroVoteCandidates (getDistribution (List.range m)
          (normalizeRows rows)) = [] := List.isEmpty_iff.mp hz
      have H2 : ∀ c ∈ List.range m, 1 ≤ countFirst (normalizeRows rows) c := by
        intro c hc
        by_contra hlt
        have h0 : countFirst (normalizeRows rows) c = 0 := by omega
        have hmem : c ∈ zeroVoteCandidates (getDistribution (List.range m)
            (normalizeRows rows)) := mem_zeroVote_iff.mpr ⟨hc, h0⟩
        rw [hznil] at hmem
        cases hmem
      have hfuel : max 1 ((List.range m).length - 1) ≤ m := by
        rw [List.length_range]
        exact max_le (by omega) (by omega)
      obtain ⟨ht, hp⟩ := loop_reaches m 1 (List.range m) (normalizeRows rows) hinit1 H2 hfuel
      rw [hst]
      dsimp only
      refine ⟨ht, ?_, hdec⟩
      rw [List.length_range, max_eq_right (by omega)] at hp
      omega
    · have hznil : zeroVoteCandidates (getDistribution (List.range m)
          (normalizeRows rows)) ≠ [] := by
        intro h
        rw [h] at hz
        exact hz rfl
      have hst : preLoopState m rows = removeCandidates
          (zeroVoteCandidates (getDistribution (List.range m) (normalizeRows rows)))
          (List.range m) (normalizeRows rows) := by
        unfold preLoopState
        dsimp only
        rw [if_neg hz]
      have H1 : ∀ b ∈ (preLoopState m rows).2, ∀ x ∈ b, x ∈ (preLoopState m rows).1 := by
        rw [hst]
        intro b hb
        exact (removeCandidates_preserves hinit1 b hb).2
      have H2 : ∀ c ∈ (preLoopState m rows).1, 1 ≤ countFirst (preLoopState m rows).2 c := by
        rw [hst]
        intro c hc
        rcases removeCandidates_cands_mem.mp hc with ⟨hcr, hcz⟩
        have hnz : countFirst (normalizeRows rows) c ≠ 0 := by
          intro h0
          have hmem : c ∈ zeroVoteCandidates (getDistribution (List.range m)
              (normalizeRows rows)) := mem_zeroVote_iff.mpr ⟨hcr, h0⟩
          have : c ∉ zeroVoteCandidates (getDistribution (List.range m)
              (normalizeRows rows)) := by simpa using hcz
          exact this hmem
        exact le_trans (by omega) (countFirst_removeCandidates_le _ hcz)
      have hlt : (preLoopState m rows).1.length < m := by
        rw [hst]
        obtain ⟨e, he⟩ := List.exists_mem_of_ne_nil _ hznil
        have hece := (mem_zeroVote_iff.mp he).1
        unfold removeCandidates
        dsimp only
        have : (List.filter (fun c => !(zeroVoteCandidates (getDistribution (List.range m)
            (normalizeRows rows))).contains c) (List.range m)).length <
            (List.range m).length := by
          rw [List.length_filter_lt_length_iff_exists]
          exact ⟨e, hece, by simpa using he⟩
        rw [List.length_range] at this
        exact this
      have hfuel : max 1 ((preLoopState m rows).1.length - 1) ≤ m :=
        max_le (by omega) (by omega)
      obtain ⟨ht, hp⟩ := loop_reaches m 1 (preLoopState m rows).1 (preLoopState m rows).2
        H1 H2 hfuel
      refine ⟨ht, ?_, hdec⟩
      have hb : max 1 ((preLoopState m rows).1.length - 1) ≤ m - 1 :=
        max_le (by omega) (by omega)
      omega

/-- C4. Whenever every still-competing candidate is tied for the lowest count
(the tied-for-lowest set is the entire remaining candidate set), the loop
pass declares a k-way tie with k the number of remaining candidates and
returns at once: the tie result carries the candidate and ballot lists
unchanged, the elimination not having been performed. -/
theorem c4_all_tied_gives_tie {cands : List ℕ} {bs : List Ballot} (fuel phase : ℕ)
    (hall : ∀ s ∈ getDistribution cands bs, s.count = lowestCount (getDistribution cands bs)) :
    loopStep cands bs = StepRes.tie cands.length cands bs ∧
    loop (fuel + 1) phase cands bs = ReportResult.tie (phase + 1) cands.length cands bs := by
  have hmin : ∀ c ∈ cands, countFirst bs c = lowestCount (getDistribution cands bs) := by
    intro c hc
    have : (mkShare bs c).count = lowestCount (getDistribution cands bs) :=
      hall _ (mem_getDistribution.mpr ⟨c, hc, rfl⟩)
    simpa [mkShare] using this
  have hstep : loopStep cands bs = StepRes.tie cands.length cands bs :=
    loopStep_eq_tie_iff.mpr ⟨sel_length_of_all_min hmin, rfl, rfl, rfl⟩
  refine ⟨hstep, ?_⟩
  simp [loop, hstep]

theorem c4_all_tied_gives_tie_witness :
    (∀ s ∈ getDistribution [0, 1] [[0], [1]],
      s.count = lowestCount (getDistribution [0, 1] [[0], [1]])) ∧
    loop 1 1 [0, 1] [[0], [1]] = ReportResult.tie 2 2 [0, 1] [[0], [1]] :=
  ⟨by decide, (c4_all_tied_gives_tie 0 1 (by decide)).2⟩

/-- C10. After a `removeCandidates` call on a state whose ballots have no
duplicate entries and mention only current candidates, every surviving
ballot is non-empty, mentions only surviving candidates, and still has no
duplicates — the invariant is preserved by every elimination step. -/
theorem c10_removeCandidates_invariant {rm cands : List ℕ} {bs : List Ballot}
    (H : ∀ b ∈ bs, (∀ x ∈ b, x ∈ cands) ∧ b.Nodup) :
    ∀ b ∈ (removeCandidates rm cands bs).2,
      b ≠ [] ∧ (∀ x ∈ b, x ∈ (removeCandidates rm cands bs).1) ∧ b.Nodup := by
  intro b hb
  obtain ⟨hne, hsub⟩ := removeCandidates_preserves (fun b hb x hx => (H b hb).1 x hx) b hb
  refine ⟨hne, hsub, ?_⟩
  obtain ⟨-, b0, hb0, rfl⟩ := removeCandidates_ballots_shape hb
  exact ((H b0 hb0).2).filter _

theorem c10_removeCandidates_invariant_witness :
    ([0] : Ballot) ≠ [] ∧
      (∀ x ∈ ([0] : Ballot), x ∈ (removeCandidates [1] [0, 1, 2] [[0, 1], [1], [1, 2]]).1) ∧
      ([0] : Ballot).Nodup :=
  c10_removeCandidates_invariant (by decide) [0] (by decide)

/-- C9. The code does not guard degenerate input: with two candidate columns
and zero ballot rows, validation passes (no abort), the initial distribution
computes the NaN percentage 0/0 (modelled `none`), and the run produces a
0-way-tie report instead of a malformed-input error. -/
theorem c9_degenerate_not_rejected :
    checkInvalidInput 2 [] = [] ∧
    ((getDistribution (List.range 2) (normalizeRows [])).headD default).percent = none ∧
    runReport 2 2 [] = ReportResult.tie 2 0 [] [] := by
  refine ⟨rfl, by decide, by decide⟩

theorem checkAux_fst_ge {m : ℕ} : ∀ (rows : List (List Cell)) (i : ℕ),
    ∀ e ∈ checkAux m i rows, i ≤ e.1 := by
  intro rows
  induction rows with
  | nil => intro i e he; cases he
  | cons row rest ih =>
    intro i e he
    unfold checkAux at he
    rcases List.mem_append.mp he with h | h
    · rcases List.mem_map.mp h with ⟨k, -, rfl⟩
      exact le_rfl
    · exact le_trans (Nat.le_succ i) (ih (i + 1) e h)

theorem checkAux_mem_fst_iff {m : ℕ} : ∀ (rows : List (List Cell)) (i j : ℕ),
    ((i + j) ∈ (checkAux m i rows).map Prod.fst ↔
      ∃ h : j < rows.length, rowProblems m rows[j] ≠ []) := by
  intro rows
  induction rows with
  | nil =>
    intro i j
    constructor
    · intro h; cases h
    · rintro ⟨h, -⟩; cases h
  | cons row rest ih =>
    intro i j
    unfold checkAux
    rw [List.map_append, List.mem_append]
    cases j with
    | zero =>
      simp only [List.getElem_cons_zero, Nat.add_zero]
      constructor
      · intro h
        refine ⟨Nat.succ_pos _, ?_⟩
        intro hnil
        rcases h with h | h
        · rw [hnil] at h
          simp at h
        · rcases List.mem_map.mp h with ⟨e, he, hfst⟩
          have := checkAux_fst_ge rest (i + 1) e he
          omega
      · rintro ⟨-, hne⟩
        left
        rcases List.exists_mem_of_ne_nil _ hne with ⟨err, herr⟩
        rw [List.map_map]
        exact List.mem_map.mpr ⟨err, herr, rfl⟩
    | succ k =>
      simp only [List.getElem_cons_succ]
      constructor
      · intro h
        rcases h with h | h
        · exfalso
          rcases List.mem_map.mp h with ⟨p, hp, hpf⟩
          rcases List.mem_map.mp hp with ⟨err, -, rfl⟩
          simp only at hpf
          omega
        · have h2 : (i + 1) + k ∈ (checkAux m (i + 1) rest).map Prod.fst := by
            rw [show (i + 1) + k = i + (k + 1) by omega]
            exact h
          rcases (ih (i + 1) k).mp h2 with ⟨hk, hne⟩
          exact ⟨Nat.succ_lt_succ hk, hne⟩
      · rintro ⟨hk, hne⟩
        right
        have h2 := (ih (i + 1) k).mpr ⟨Nat.lt_of_succ_lt_succ hk, hne⟩
        rw [show i + (k + 1) = (i + 1) + k by omega]
        exact h2

/-- C8. Validation reports every offending row: a ballot row has a problem
iff its line number (row index + 2) appears among the collected errors, so
all offending rows are gathered in one pass rather than stopping at the
first; and when any row fails, the run returns the collected error list and
produces no report, whatever the fuel. -/
theorem c8_all_errors_reported (m : ℕ) (rows : List (List Cell)) :
    (∀ j (hj : j < rows.length),
      (rowProblems m rows[j] ≠ [] ↔
        (2 + j) ∈ (checkInvalidInput m rows).map Prod.fst)) ∧
    (checkInvalidInput m rows ≠ [] →
      ∀ fuel, runReport fuel m rows = ReportResult.invalid (checkInvalidInput m rows)) := by
  constructor
  · intro j hj
    unfold checkInvalidInput
    rw [checkAux_mem_fst_iff rows 2 j]
    constructor
    · intro hne
      exact ⟨hj, hne⟩
    · rintro ⟨hj2, hne⟩
      exact hne
  · intro hne fuel
    unfold runReport
    have hie : (checkInvalidInput m rows).isEmpty = false := by
      rcases hcheck : checkInvalidInput m rows with _ | ⟨e, es⟩
      · exact absurd hcheck hne
      · rfl
    dsimp only
    rw [if_pos (by rw [hie]; rfl)]

theorem c8_all_errors_reported_witness :
    (rowProblems 1 [Cell.num 5] ≠ [] ↔
      (2 + 0) ∈ (checkInvalidInput 1 [[Cell.num 5], [Cell.num 1, Cell.num 2]]).map Prod.fst) ∧
    (rowProblems 1 [Cell.num 1, Cell.num 2] ≠ [] ↔
      (2 + 1) ∈ (checkInvalidInput 1 [[Cell.num 5], [Cell.num 1, Cell.num 2]]).map Prod.fst) ∧
    runReport 7 1 [[Cell.num 5], [Cell.num 1, Cell.num 2]] =
      ReportResult.invalid (checkInvalidInput 1 [[Cell.num 5], [Cell.num 1, Cell.num 2]]) :=
  ⟨(c8_all_errors_reported 1 [[Cell.num 5], [Cell.num 1, Cell.num 2]]).1 0 (by decide),
   (c8_all_errors_reported 1 [[Cell.num 5], [Cell.num 1, Cell.num 2]]).1 1 (by decide),
   (c8_all_errors_reported 1 [[Cell.num 5], [Cell.num 1, Cell.num 2]]).2 (by decide) 7⟩

theorem loop_ne_wonImmediately : ∀ (fuel phase : ℕ) (cands : List ℕ) (bs : List Ballot)
    (w : ℕ) (d : List ShareOfVotes), loop fuel phase cands bs ≠ ReportResult.wonImmediately w d := by
  intro fuel
  induction fuel with
  | zero => intro phase cands bs w d h; cases h
  | succ fuel ih =>
    intro phase cands bs w d h
    unfold loop at h
    rcases hstep : loopStep cands bs with ⟨k, c, b⟩ | ⟨ww, dd, c, b⟩ | ⟨c, b⟩ <;>
      rw [hstep] at h
    · cases h
    · cases h
    · exact ih (phase + 1) c b w d h

theorem headD_jsGt50_iff (cands : List ℕ) (bs : List Ballot) :
    jsGt50 ((getDistribution cands bs).headD default).percent = true ↔
      bs.length < 2 * ((getDistribution cands bs).headD default).count := by
  rcases hd : getDistribution cands bs with _ | ⟨d, rest⟩
  · rw [List.headD_nil]
    have hdef : (default : ShareOfVotes) = ⟨0, 0, none⟩ := rfl
    rw [hdef]
    simp [jsGt50]
  · have hdm : d ∈ getDistribution cands bs := by
      rw [hd]
      exact List.mem_cons_self _ _
    rcases mem_getDistribution.mp hdm with ⟨c, -, rfl⟩
    simp only [List.headD_cons]
    show jsGt50 (pctOf (countFirst bs c) bs.length) = true ↔
      bs.length < 2 * countFirst bs c
    exact jsGt50_pctOf_of_le (countFirst_le_length bs c)

theorem runReport_win_eq {fuel m : ℕ} {rows : List (List Cell)}
    (hv : checkInvalidInput m rows = [])
    (hw : jsGt50 ((getDistribution (List.range m)
      (normalizeRows rows)).headD default).percent = true) :
    runReport fuel m rows = ReportResult.wonImmediately
      ((getDistribution (List.range m) (normalizeRows rows)).headD default).candidate
      (getDistribution (List.range m) (normalizeRows rows)) := by
  unfold runReport
  rw [hv]
  dsimp only
  rw [if_neg (by decide), if_pos hw]

theorem runReport_loop_eq {fuel m : ℕ} {rows : List (List Cell)}
    (hv : checkInvalidInput m rows = [])
    (hw : jsGt50 ((getDistribution (List.range m)
      (normalizeRows rows)).headD default).percent = false) :
    runReport fuel m rows = loop fuel 1 (preLoopState m rows).1 (preLoopState m rows).2 := by
  unfold runReport
  rw [hv]
  dsimp only
  rw [if_neg (by decide), if_neg (by rw [hw]; exact Bool.false_ne_true)]

/-- C1. A winner is declared exactly at the two strict-majority checks:
on valid input the run declares an immediate winner iff the leading entry of
the initial distribution has percent > 50, which holds iff twice its count
exceeds the ballot total; a loop pass that does not hit the tie branch
declares a winner iff, after the batch elimination and recompute, twice the
leading count exceeds the live-ballot total (percent > 50); and a leading
candidate with exactly 50.00% (twice the count equal to the total) does not
win outright. -/
theorem c1_strict_majority_win (fuel m : ℕ) (rows : List (List Cell))
    (hv : checkInvalidInput m rows = []) :
    ((∃ w d, runReport fuel m rows = ReportResult.wonImmediately w d) ↔
      jsGt50 ((getDistribution (List.range m)
        (normalizeRows rows)).headD default).percent = true) ∧
    (jsGt50 ((getDistribution (List.range m)
        (normalizeRows rows)).headD default).percent = true ↔
      (normalizeRows rows).length <
        2 * ((getDistribution (List.range m) (normalizeRows rows)).headD default).count) ∧
    (∀ (cands : List ℕ) (bs : List Ballot),
      (selMinCount (getDistribution cands bs)).length ≠ cands.length →
      ((∃ w d c2 b2, loopStep cands bs = StepRes.won w d c2 b2) ↔
        (elimState cands bs).2.length <
          2 * ((postDist cands bs).headD default).count)) ∧
    (2 * ((getDistribution (List.range m) (normalizeRows rows)).headD default).count =
        (normalizeRows rows).length →
      ∀ w d, runReport fuel m rows ≠ ReportResult.wonImmediately w d) := by
  have h1 : (∃ w d, runReport fuel m rows = ReportResult.wonImmediately w d) ↔
      jsGt50 ((getDistribution (List.range m)
        (normalizeRows rows)).headD default).percent = true := by
    constructor
    · rintro ⟨w, d, hwd⟩
      by_contra hw
      have hw2 : jsGt50 ((getDistribution (List.range m)
          (normalizeRows rows)).headD default).percent = false := by
        simpa using hw
      rw [runReport_loop_eq hv hw2] at hwd
      exact loop_ne_wonImmediately _ _ _ _ _ _ hwd
    · intro hw
      exact ⟨_, _, runReport_win_eq hv hw⟩
  have h2 := headD_jsGt50_iff (List.range m) (normalizeRows rows)
  have h3 : ∀ (cands : List ℕ) (bs : List Ballot),
      (selMinCount (getDistribution cands bs)).length ≠ cands.length →
      ((∃ w d c2 b2, loopStep cands bs = StepRes.won w d c2 b2) ↔
        (elimState cands bs).2.length <
          2 * ((postDist cands bs).headD default).count) := by
    intro cands bs hnt
    have hiff : jsGt50 ((postDist cands bs).headD default).percent = true ↔
        (elimState cands bs).2.length < 2 * ((postDist cands bs).headD default).count :=
      headD_jsGt50_iff (elimState cands bs).1 (elimState cands bs).2
    constructor
    · rintro ⟨w, d, c2, b2, hstep⟩
      rw [← hiff]
      by_contra hw
      have hw2 : jsGt50 ((postDist cands bs).headD default).percent = false := by
        simpa using hw
      have hnext := loopStep_eq_next_iff.mpr ⟨hnt, hw2, rfl, rfl⟩
      rw [hstep] at hnext
      cases hnext
    · intro hrhs
      exact ⟨_, _, _, _, loopStep_eq_won_of hnt (hiff.mpr hrhs)⟩
  refine ⟨h1, h2, h3, ?_⟩
  intro heq w d hwd
  have hgt := h2.mp (h1.mp ⟨w, d, hwd⟩)
  omega

theorem c1_strict_majority_win_witness :
    (∃ w d, runReport 1 1 [[Cell.num 1]] = ReportResult.wonImmediately w d) ∧
    (∃ w d c2 b2, loopStep [0, 1] [[0], [0], [1]] = StepRes.won w d c2 b2) := by
  have h := c1_strict_majority_win 1 1 [[Cell.num 1]] (by decide)
  refine ⟨h.1.mpr (by decide), ?_⟩
  have h3 := h.2.2.1 [0, 1] [[0], [0], [1]] (by decide)
  exact h3.mpr (by decide)

theorem c3_termination_bound_witness :
    ((1 : ℕ) ≤ 2 ∧ ([[Cell.num 1, Cell.empty], [Cell.empty, Cell.num 1]] : List (List Cell)) ≠ [] ∧
      (∀ row ∈ ([[Cell.num 1, Cell.empty], [Cell.empty, Cell.num 1]] : List (List Cell)),
        rowProblems 2 row = [] ∧ ((∀ c ∈ row, c = Cell.empty) → 2 ≤ row.length))) ∧
    resultTerminal (runReport 2 2 [[Cell.num 1, Cell.empty], [Cell.empty, Cell.num 1]]) = true ∧
    resultPhase (runReport 2 2 [[Cell.num 1, Cell.empty], [Cell.empty, Cell.num 1]]) ≤ 2 := by
  refine ⟨⟨by decide, by decide, by decide⟩, ?_⟩
  have h := c3_termination_bound 2 [[Cell.num 1, Cell.empty], [Cell.empty, Cell.num 1]]
    (by decide) (by decide) (by decide)
  exact ⟨h.1, h.2.1⟩

/-- C5 counterexample. The claim says a row is accepted iff it does not have
more NON-EMPTY cells than candidates and its ranks are exactly 1..k; but the
code compares the TOTAL cell count against the candidate count.  The row
with cells 1, 2, empty against 2 candidates has 2 non-empty cells with ranks
exactly 1, 2 — the claim says accept — yet validation reports
tooManyColumns. -/
theorem c5_counterexample :
    rowProblems 2 [Cell.num 1, Cell.num 2, Cell.empty] = [ErrKind.tooManyColumns] ∧
    ([Cell.num 1, Cell.num 2, Cell.empty].filter cellKept).length ≤ 2 ∧
    rowRankingsValid [Cell.num 1, Cell.num 2, Cell.empty] = true := by
  refine ⟨by decide, by decide, by decide⟩

theorem sorted_rank_target (k : ℕ) :
    List.Sorted (· ≤ ·) ((List.range k).map (fun j => ((j + 1 : ℕ) : ℚ))) := by
  refine List.Pairwise.map _ ?_ (List.pairwise_lt_range k)
  intro a b hab
  have : a + 1 ≤ b + 1 := by omega
  exact_mod_cast this

/-- C5 amended. Validation accepts a ballot row iff the row does not have
more CELLS (total, empty included) than there are candidates, no cell
coerces to NaN, and the multiset of numeric values of the non-empty cells is
exactly 1, 2, ..., k for k the number of non-empty cells (so any duplicate,
gap, zero, or non-positive value is rejected). -/
theorem c5_validation_characterization (m : ℕ) (row : List Cell) :
    rowProblems m row = [] ↔
      (row.length ≤ m ∧ rowHasNan row = false ∧
        (rowVals row).Perm ((List.range (row.filter cellKept).length).map
          (fun j => ((j + 1 : ℕ) : ℚ)))) := by
  rw [rowProblems_eq_nil]
  constructor
  · rintro ⟨hlen, hrv⟩
    unfold rowRankingsValid at hrv
    rw [Bool.and_eq_true] at hrv
    refine ⟨hlen, by simpa using hrv.1, ?_⟩
    have hsorted := beq_iff_eq.mp hrv.2
    have hperm1 : (rowVals row).Perm (List.insertionSort (· ≤ ·) (rowVals row)) :=
      (List.perm_insertionSort _ _).symm
    exact hsorted ▸ hperm1
  · rintro ⟨hlen, hnan, hperm⟩
    refine ⟨hlen, ?_⟩
    unfold rowRankingsValid
    rw [Bool.and_eq_true]
    refine ⟨by simpa using hnan, beq_iff_eq.mpr ?_⟩
    refine List.eq_of_perm_of_sorted ?_ (List.sorted_insertionSort _ _) (sorted_rank_target _)
    exact (List.perm_insertionSort _ _).trans hperm

/-- C6 counterexample. An all-empty ballot row yields an empty ballot that is
NOT dropped before tabulation: on the valid input with candidate columns
A, B and rows (rank 1 for A) and (all empty), the empty ballot reaches the
initial distribution and inflates its denominator — the leading percent is
50, not the 100 obtained without the empty row — so the run proceeds into
the runoff (ending in a 1-way tie) instead of declaring the immediate winner
that the same input without the empty row produces. -/
theorem c6_counterexample :
    checkInvalidInput 2 [[Cell.num 1, Cell.empty], [Cell.empty, Cell.empty]] = [] ∧
    normalizeRows [[Cell.num 1, Cell.empty], [Cell.empty, Cell.empty]] = [[0], []] ∧
    ((getDistribution (List.range 2) [[0], []]).headD default).percent = some 50 ∧
    ((getDistribution (List.range 2) [[0]]).headD default).percent = some 100 ∧
    runReport 4 2 [[Cell.num 1, Cell.empty], [Cell.empty, Cell.empty]] =
      ReportResult.tie 2 1 [0] [[0]] ∧
    runReport 4 2 [[Cell.num 1, Cell.empty]] =
      ReportResult.wonImmediately 0
        [⟨0, 1, some 100⟩, ⟨1, 0, some 0⟩] := by
  refine ⟨by decide, by decide, by decide, by decide, by decide, by decide⟩

/-- C6 amended. A row with zero non-empty cells normalizes to the empty
ballot; an empty ballot contributes to no candidate count, but it is not
dropped before tabulation: it counts in the denominator of every
percentage of the distribution it participates in (appending it changes
every percent denominator from n to n + 1).  It is removed at the first
`removeCandidates` call — whose output never contains an empty ballot —
matching from then on the treatment of ballots emptied by elimination. -/
theorem c6_empty_ballot_amended (cands : List ℕ) (bs : List Ballot) (rm : List ℕ)
    (row : List Cell) (hrow : ∀ c ∈ row, c = Cell.empty) :
    normalizeRow row = [] ∧
    (∀ c : ℕ, countFirst (bs ++ [[]]) c = countFirst bs c) ∧
    (∀ s ∈ getDistribution cands (bs ++ [[]]), s.percent = pctOf s.count (bs.length + 1)) ∧
    [] ∉ (removeCandidates rm cands bs).2 := by
  refine ⟨?_, ?_, ?_, ?_⟩
  · unfold normalizeRow
    have hkept : row.filter cellKept = [] := by
      rw [List.filter_eq_nil_iff]
      intro c hc
      rw [hrow c hc]
      decide
    rw [hkept]
    rfl
  · intro c
    unfold countFirst
    rw [List.filter_append]
    simp
  · intro s hs
    rcases mem_getDistribution.mp hs with ⟨c, -, rfl⟩
    unfold mkShare
    simp only
    rw [List.length_append]
    rfl
  · intro hmem
    exact (removeCandidates_ballots_shape hmem).1 rfl

theorem c6_empty_ballot_amended_witness :
    normalizeRow [Cell.empty, Cell.empty] = [] ∧
    (∀ c : ℕ, countFirst ([[0]] ++ [[]]) c = countFirst [[0]] c) ∧
    [] ∉ (removeCandidates [1] [0, 1] [[0], []]).2 := by
  have h := c6_empty_ballot_amended [0, 1] [[0]] [1] [Cell.empty, Cell.empty] (by decide)
  have h2 := c6_empty_ballot_amended [0, 1] [[0], []] [1] [Cell.empty, Cell.empty] (by decide)
  exact ⟨h.1, h.2.1, h2.2.2.2⟩

theorem countFirst_cons (b : Ballot) (bs : List Ballot) (c : ℕ) :
    countFirst (b :: bs) c = (if b.head? = some c then 1 else 0) + countFirst bs c := by
  unfold countFirst
  by_cases h : b.head? = some c
  · simp [List.filter_cons, h, Nat.add_comm]
  · simp [List.filter_cons, h]

theorem sum_indicator_zero (hd : Option ℕ) : ∀ (cs : List ℕ), (∀ c ∈ cs, hd ≠ some c) →
    (cs.map (fun c => if hd = some c then 1 else 0)).sum = 0 := by
  intro cs
  induction cs with
  | nil => intro _; rfl
  | cons c cs ih =>
    intro h
    rw [List.map_cons, List.sum_cons, if_neg (h c (List.mem_cons_self _ _)),
      ih (fun c2 hc2 => h c2 (List.mem_cons_of_mem _ hc2))]

theorem sum_indicator_count (hd : Option ℕ) : ∀ (cs : List ℕ), cs.Nodup →
    (cs.map (fun c => if hd = some c then 1 else 0)).sum =
      (if ∃ h ∈ cs, hd = some h then 1 else 0) := by
  intro cs
  induction cs with
  | nil => intro _; simp
  | cons c cs ih =>
    intro hnd
    rw [List.map_cons, List.sum_cons]
    rcases List.nodup_cons.mp hnd with ⟨hcn, hnd2⟩
    by_cases hc : hd = some c
    · rw [if_pos hc]
      have hz : (cs.map (fun c2 => if hd = some c2 then 1 else 0)).sum = 0 := by
        refine sum_indicator_zero hd cs ?_
        intro c2 hc2 heq
        rw [hc] at heq
        injection heq with heq2
        rw [heq2] at hcn
        exact hcn hc2
      rw [hz, if_pos ⟨c, List.mem_cons_self _ _, hc⟩]
    · rw [if_neg hc, ih hnd2]
      by_cases hex : ∃ h ∈ cs, hd = some h
      · rcases hex with ⟨h2, hh2, hhd⟩
        rw [if_pos ⟨h2, hh2, hhd⟩, if_pos ⟨h2, List.mem_cons_of_mem _ hh2, hhd⟩]
      · rw [if_neg hex, if_neg ?_]
        rintro ⟨h2, hh2, hhd⟩
        rcases List.mem_cons.mp hh2 with rfl | hh2
        · exact hc hhd
        · exact hex ⟨h2, hh2, hhd⟩

theorem sum_counts_eq : ∀ (bs : List Ballot) (cands : List ℕ), cands.Nodup →
    (∀ b ∈ bs, ∀ h, b.head? = some h → h ∈ cands) →
    (cands.map (fun c => countFirst bs c)).sum =
      (bs.filter (fun b => !b.isEmpty)).length := by
  intro bs
  induction bs with
  | nil =>
    intro cands _ _
    simp [countFirst]
  | cons b rest ih =>
    intro cands hnd hheads
    simp only [countFirst_cons]
    rw [List.sum_map_add]
    rw [ih cands hnd (fun b2 hb2 => hheads b2 (List.mem_cons_of_mem _ hb2))]
    rw [sum_indicator_count b.head? cands hnd]
    cases b with
    | nil =>
      rw [if_neg (by rintro ⟨h2, -, hhd⟩; cases hhd)]
      simp [List.filter_cons]
    | cons h t =>
      have hmem : h ∈ cands := hheads (h :: t) (List.mem_cons_self _ _) h rfl
      rw [if_pos ⟨h, hmem, rfl⟩]
      simp [List.filter_cons, Nat.add_comm]

theorem sum_percents_eq (cands : List ℕ) (bs : List Ballot) (hnd : cands.Nodup)
    (hne : bs ≠ []) (hall : ∀ b ∈ bs, b ≠ [])
    (hheads : ∀ b ∈ bs, ∀ h, b.head? = some h → h ∈ cands) :
    ((getDistribution cands bs).map (fun s => s.percent.getD 0)).sum = 100 := by
  have hp := ((getDistribution_perm cands bs).map (fun s => s.percent.getD 0)).sum_eq
  rw [hp, List.map_map]
  have hn : bs.length ≠ 0 := fun h0 => hne (List.length_eq_zero.mp h0)
  have hcast : ((bs.length : ℕ) : ℚ) ≠ 0 := Nat.cast_ne_zero.mpr hn
  have hpt : ∀ c ∈ cands, ((fun s => s.percent.getD 0) ∘ mkShare bs) c =
      (100 / (bs.length : ℚ)) * (countFirst bs c : ℚ) := by
    intro c _
    show ((mkShare bs c).percent.getD 0) = (100 / (bs.length : ℚ)) * (countFirst bs c : ℚ)
    unfold mkShare pctOf
    simp only
    rw [if_neg hn]
    rw [Option.getD_some, Rat.mkRat_eq_div]
    push_cast
    field_simp
  rw [List.map_congr_left hpt, List.sum_map_mul_left]
  have hm : cands.map (fun c => ((countFirst bs c : ℕ) : ℚ)) =
      List.map Nat.cast (cands.map (fun c => countFirst bs c)) := by
    rw [List.map_map]
    rfl
  rw [hm, ← Nat.cast_list_sum]
  rw [sum_counts_eq bs cands hnd hheads]
  rw [List.filter_eq_self.mpr (by
    intro b hb
    simpa [List.isEmpty_iff] using hall b hb)]
  field_simp

/-- C7 amended. In every phase, the sum of `count` over the computed
distribution equals the number of currently-live NON-EMPTY ballots (an
empty ballot is live in the initial phase but has no first preference), and
when the live list is non-empty and every live ballot is non-empty — true
from the first `removeCandidates` call onward — the percents sum to exactly
100. -/
theorem c7_distribution_sums (cands : List ℕ) (bs : List Ballot) (hnd : cands.Nodup)
    (hheads : ∀ b ∈ bs, ∀ h, b.head? = some h → h ∈ cands) :
    ((getDistribution cands bs).map (fun s => s.count)).sum =
      (bs.filter (fun b => !b.isEmpty)).length ∧
    (bs ≠ [] → (∀ b ∈ bs, b ≠ []) →
      ((getDistribution cands bs).map (fun s => s.percent.getD 0)).sum = 100) := by
  constructor
  · have hp := ((getDistribution_perm cands bs).map (fun s => s.count)).sum_eq
    rw [hp, List.map_map]
    have hfun : ((fun s => s.count) ∘ mkShare bs) = fun c => countFirst bs c := rfl
    rw [hfun]
    exact sum_counts_eq bs cands hnd hheads
  · intro hne hall
    exact sum_percents_eq cands bs hnd hne hall hheads

theorem c7_distribution_sums_witness :
    ((getDistribution [0, 1] [[0], [1]]).map (fun s => s.count)).sum =
      ([[0], [1]].filter (fun b => !List.isEmpty b)).length ∧
    ((getDistribution [0, 1] [[0], [1]]).map (fun s => s.percent.getD 0)).sum = 100 := by
  have h := c7_distribution_sums [0, 1] [[0], [1]] (by decide) (by decide)
  exact ⟨h.1, h.2 (by decide) (by decide)⟩

/-- C7 counterexample. On the valid input with candidates A, B and rows
(rank 1 for A) and (all empty), the initial phase has two live ballots but
the counts sum to 1 and the percents sum to 50: the empty ballot is live in
phase 1 yet contributes to no count, falsifying both claimed sums. -/
theorem c7_counterexample :
    checkInvalidInput 2 [[Cell.num 1, Cell.empty], [Cell.empty, Cell.empty]] = [] ∧
    ((getDistribution (List.range 2)
      (normalizeRows [[Cell.num 1, Cell.empty], [Cell.empty, Cell.empty]])).map
        (fun s => s.count)).sum = 1 ∧
    (normalizeRows [[Cell.num 1, Cell.empty], [Cell.empty, Cell.empty]]).length = 2 ∧
    ((getDistribution (List.range 2)
      (normalizeRows [[Cell.num 1, Cell.empty], [Cell.empty, Cell.empty]])).map
        (fun s => s.percent.getD 0)).sum = 50 := by
  refine ⟨by decide, by decide, by decide, ?_⟩
  have hmap : (getDistribution (List.range 2)
      (normalizeRows [[Cell.num 1, Cell.empty], [Cell.empty, Cell.empty]])).map
        (fun s => s.percent.getD 0) = [(50 : ℚ), 0] := by decide
  rw [hmap]
  norm_num

theorem mkRat_hundred_le_iff {n a b : ℕ} (hn : n ≠ 0) :
    mkRat (100 * a) n ≤ mkRat (100 * b) n ↔ a ≤ b := by
  rw [Rat.mkRat_eq_div, Rat.mkRat_eq_div]
  have hpos : (0 : ℚ) < (n : ℚ) := by
    exact_mod_cast Nat.pos_of_ne_zero hn
  rw [div_le_div_iff_of_pos_right hpos]
  constructor
  · intro h
    have h2 : ((100 * a : ℕ) : ℚ) ≤ ((100 * b : ℕ) : ℚ) := by exact_mod_cast h
    have h3 : 100 * a ≤ 100 * b := by exact_mod_cast h2
    omega
  · intro h
    have h3 : 100 * a ≤ 100 * b := by omega
    have h2 : ((100 * a : ℕ) : ℚ) ≤ ((100 * b : ℕ) : ℚ) := by exact_mod_cast h3
    exact_mod_cast h2

theorem jsMin_pctOf {n : ℕ} (hn : n ≠ 0) (a b : ℕ) :
    jsMin (pctOf a n) (pctOf b n) = pctOf (min a b) n := by
  unfold pctOf
  rw [if_neg hn, if_neg hn, if_neg hn]
  show some (min (mkRat (100 * a) n) (mkRat (100 * b) n)) = some (mkRat (100 * (min a b)) n)
  congr 1
  rcases le_total a b with hab | hab
  · rw [min_eq_left ((mkRat_hundred_le_iff hn).mpr hab), min_eq_left hab]
  · rw [min_eq_right ((mkRat_hundred_le_iff hn).mpr hab), min_eq_right hab]

theorem jsEqNum_pctOf {n : ℕ} (hn : n ≠ 0) (a b : ℕ) :
    jsEqNum (pctOf a n) (pctOf b n) = (a == b) := by
  unfold pctOf
  rw [if_neg hn, if_neg hn]
  show (mkRat (100 * a) n == mkRat (100 * b) n) = (a == b)
  rcases eq_or_ne a b with rfl | hab
  · simp
  · have : mkRat (100 * a) n ≠ mkRat (100 * b) n := by
      intro heq
      have h1 : a ≤ b := (mkRat_hundred_le_iff hn).mp (le_of_eq heq)
      have h2 : b ≤ a := (mkRat_hundred_le_iff hn).mp (le_of_eq heq.symm)
      exact hab (le_antisymm h1 h2)
    simp [this, hab]

theorem foldl_jsMin_pctOf {n : ℕ} (hn : n ≠ 0) :
    ∀ (rest : List ShareOfVotes) (c : ℕ),
    (∀ s ∈ rest, s.percent = pctOf s.count n) →
    (rest.map (fun s => s.percent)).foldl jsMin (pctOf c n) =
      pctOf ((rest.map (fun s => s.count)).foldl min c) n := by
  intro rest
  induction rest with
  | nil => intro c _; rfl
  | cons s ss ih =>
    intro c hc
    rw [List.map_cons, List.map_cons, List.foldl_cons, List.foldl_cons]
    rw [hc s (List.mem_cons_self _ _), jsMin_pctOf hn]
    exact ih (min c s.count) (fun s2 hs2 => hc s2 (List.mem_cons_of_mem _ hs2))

theorem foldl_jsMin_none : ∀ (l : List (Option ℚ)), l.foldl jsMin none = none := by
  intro l
  induction l with
  | nil => rfl
  | cons x xs ih =>
    rw [List.foldl_cons]
    have : jsMin none x = none := by cases x <;> rfl
    rw [this, ih]

theorem lowestPercent_coupled {n : ℕ} (hn : n ≠ 0) (L : List ShareOfVotes)
    (hcoupled : ∀ s ∈ L, s.percent = pctOf s.count n) (hL : L ≠ []) :
    lowestPercent L = pctOf (lowestCount L) n := by
  cases L with
  | nil => exact absurd rfl hL
  | cons s ss =>
    unfold lowestPercent lowestCount
    rw [List.map_cons, List.map_cons]
    simp only
    rw [hcoupled s (List.mem_cons_self _ _)]
    exact foldl_jsMin_pctOf hn ss s.count
      (fun s2 hs2 => hcoupled s2 (List.mem_cons_of_mem _ hs2))

/-- C2 amended. Within one phase all percentages share the live-ballot total
as denominator, so whenever at least one live ballot remains — whether or
not ballots have been dropped — the minimum-count rule and the
minimum-percent rule select exactly the same elimination set; the two rules
diverge only at a phase whose live-ballot list is empty while candidates
remain, where the count rule selects every remaining candidate (all counts
are the minimum 0) and the percent rule selects nobody (every percent is
NaN, and NaN is === to nothing). -/
theorem c2_elimination_variants (cands : List ℕ) (bs : List Ballot) :
    (bs ≠ [] →
      selMinCount (getDistribution cands bs) = selMinPercent (getDistribution cands bs)) ∧
    (bs = [] → cands ≠ [] →
      selMinPercent (getDistribution cands bs) = [] ∧
      selMinCount (getDistribution cands bs) =
        (getDistribution cands bs).map (fun s => s.candidate) ∧
      selMinCount (getDistribution cands bs) ≠ []) := by
  have hcoupled : ∀ s ∈ getDistribution cands bs, s.percent = pctOf s.count bs.length := by
    intro s hs
    rcases mem_getDistribution.mp hs with ⟨c, -, rfl⟩
    rfl
  constructor
  · intro hne
    have hn : bs.length ≠ 0 := fun h0 => hne (List.length_eq_zero.mp h0)
    rcases hdist : getDistribution cands bs with _ | ⟨d, ds⟩
    · rfl
    · rw [← hdist]
      unfold selMinCount selMinPercent
      have hLne : getDistribution cands bs ≠ [] := by rw [hdist]; exact List.cons_ne_nil _ _
      rw [lowestPercent_coupled hn _ hcoupled hLne]
      congr 1
      refine List.filter_congr ?_
      intro s hs
      rw [hcoupled s hs, jsEqNum_pctOf hn]
  · rintro rfl hcne
    have hz : ∀ s ∈ getDistribution cands [], s.count = 0 := by
      intro s hs
      rcases mem_getDistribution.mp hs with ⟨c, -, rfl⟩
      rfl
    have hLne : getDistribution cands [] ≠ [] := dist_ne_nil_of_cands hcne
    have hlow : lowestCount (getDistribution cands []) = 0 := by
      rcases lowestCount_attained hLne with ⟨s, hs, hv⟩
      rw [← hv, hz s hs]
    refine ⟨?_, ?_, ?_⟩
    · unfold selMinPercent
      have hnone : lowestPercent (getDistribution cands []) = none := by
        rcases hdist : getDistribution cands [] with _ | ⟨d, ds⟩
        · exact absurd hdist hLne
        · unfold lowestPercent
          rw [List.map_cons]
          simp only
          have hd : d.percent = none := by
            have := hcoupled d (by rw [hdist]; exact List.mem_cons_self _ _)
            rw [this]
            rfl
          rw [hd]
          exact foldl_jsMin_none _
      rw [hnone]
      rw [List.filter_eq_nil_iff.mpr]
      · rfl
      · intro s hs
        have : s.percent = none := by
          rw [hcoupled s hs]
          rfl
        rw [this]
        intro hfalse
        cases hfalse
    · unfold selMinCount
      rw [hlow]
      rw [List.filter_eq_self.mpr]
      intro s hs
      rw [hz s hs]
      rfl
    · intro hnil
      unfold selMinCount at hnil
      rw [hlow] at hnil
      rw [List.filter_eq_self.mpr (by
        intro s hs
        rw [hz s hs]
        rfl)] at hnil
      rcases hdist : getDistribution cands [] with _ | ⟨d, ds⟩
      · exact absurd hdist hLne
      · rw [hdist] at hnil
        cases hnil

theorem c2_elimination_variants_witness :
    selMinCount (getDistribution [0, 1] [[0]]) =
      selMinPercent (getDistribution [0, 1] [[0]]) ∧
    selMinPercent (getDistribution [0] []) = [] :=
  ⟨(c2_elimination_variants [0, 1] [[0]]).1 (by decide),
   ((c2_elimination_variants [0] []).2 rfl (by decide)).1⟩

/-- C2 counterexample. The two variants do NOT agree on every phase reached
with no dropped ballots: on the degenerate but validation-accepted input
with one candidate column and no ballot rows (no ballot is ever dropped),
the percent variant enters its loop at the state (candidates [0], no
ballots); there the count minimum selects candidate 0 while the percent
minimum (NaN) selects nobody — different elimination sets — and indeed the
count-variant run terminates in a 0-way tie while the percent-variant run
spins forever (fuel exhaustion at any fuel). -/
theorem c2_counterexample :
    checkInvalidInput 1 [] = [] ∧
    normalizeRows ([] : List (List Cell)) = [] ∧
    preLoopStateP 1 [] = ([0], []) ∧
    selMinCount (getDistribution [0] []) = [0] ∧
    selMinPercent (getDistribution [0] []) = [] ∧
    runReportP 5 1 [] = ReportResult.fuelOut ∧
    runReport 5 1 [] = ReportResult.tie 2 0 [] [] := by
  refine ⟨rfl, rfl, by decide, by decide, by decide, by decide, by decide⟩
